import Mathlib

/-!
Verification of `clean_dir_list.py`: a recursive directory lister that walks a
root directory with `os.walk(root, topdown=True, followlinks=False)`, prunes
subdirectories whose base name is in an exclude set, collects posix-style
relative file paths, sorts them, and prints either the full list or its
intersection with a fixed example allowlist.

The filesystem is shallowly embedded as a tree of entries (`FSEntry`): a
directory's contents are a list of named entries, where a symbolic link to a
directory is its own constructor carrying the target's contents (so that "do
not follow symlinks" is observable).  Pure functions below are translated
line-by-line from the Python source; the traversal order of `os.walk`
(a directory's files are emitted before descending into its subdirectories)
differs from our per-entry recursion only in the order of the pre-sort
accumulator, and the final sort makes the two orders yield identical output,
since equal strings are interchangeable in a sorted list.
-/

namespace CleanDirList

/-- Model of a filesystem node: a regular file, a directory with its
contents, or a symbolic link pointing at a directory (carrying the contents
of the link target).  A directory tree is a `List FSEntry`. -/
inductive FSEntry where
  | file (name : String)
  | dir (name : String) (children : List FSEntry)
  | symlinkDir (name : String) (target : List FSEntry)

/-- Source lines 30-42: the hardcoded example allowlist `EXAMPLE_FILES`. -/
def EXAMPLE_FILES : List String :=
  ["package.json",
   "src/main.tsx",
   "src/App.tsx",
   "src/lib/supabaseClient.ts",
   "src/contexts/AuthProvider.tsx",
   "src/components/Navbar.tsx",
   "src/components/AuthModal.tsx",
   "src/pages/Dashboard.tsx",
   "src/pages/Explore.tsx",
   "src/db/migrations/001_create_profiles.sql",
   "README_SUBTASK1.md"]

/-- Source lines 44-53: the default exclude set `DEFAULT_EXCLUDE_DIRS`.
The Python value is a `set`; only membership in it is ever used, so it is
embedded as the list of its elements. -/
def DEFAULT_EXCLUDE_DIRS : List String :=
  ["node_modules", ".git", "dist", "build", ".vite", ".cache", ".parcel-cache", "__pycache__"]

/-- Relative-path construction of source lines 70-73: with `segs` the
segments of the directory's path relative to the root, a file `f` in that
directory gets relative path `f` when `segs = []` (the `str(rel_dir) == "."`
branch) and otherwise the segments and the file name joined by `"/"`
(the `(rel_dir / f).as_posix()` branch). -/
def joinPath : List String → String → String
  | [], f => f
  | d :: rest, f => d ++ "/" ++ joinPath rest f

/-- The posix string of a relative directory path, as `pathlib` renders
`rel_dir` itself: `"."` for the root, otherwise the segments joined by
`"/"`. -/
def dirRelPath : List String → String
  | [] => "."
  | [d] => d
  | d :: rest => d ++ "/" ++ dirRelPath rest

/-- The `os.walk` loop of source lines 63-74, accumulating relative file
paths.  `pre` is the current directory's path relative to the root, as
segments.  Line 65 (`dirnames[:] = [d for d in dirnames if d not in
exclude_dirs]`) together with `topdown=True` makes the walk skip every
subdirectory whose name is in `exclude`, which is the `if n ∈ exclude`
guard; `followlinks=False` makes the walk never descend through a symlink
to a directory, which is the `symlinkDir` case collecting nothing. -/
def walkCollect (exclude : List String) : List FSEntry → List String → List String
  | [], _ => []
  | FSEntry.file n :: es, pre => joinPath pre n :: walkCollect exclude es pre
  | FSEntry.dir n cs :: es, pre =>
      (if n ∈ exclude then [] else walkCollect exclude cs (pre ++ [n]))
        ++ walkCollect exclude es pre
  | FSEntry.symlinkDir _ _ :: es, pre => walkCollect exclude es pre

/-- The contribution of a single directory entry to the walk at relative
directory `pre`: a regular file contributes its relative path, a
subdirectory contributes its whole walk unless pruned, a symlinked
directory contributes nothing (never descended).  `walkCollect` on a cons
is exactly this block followed by the rest. -/
def emitEntry (exclude pre : List String) : FSEntry → List String
  | FSEntry.file n => [joinPath pre n]
  | FSEntry.dir n cs => if n ∈ exclude then [] else walkCollect exclude cs (pre ++ [n])
  | FSEntry.symlinkDir _ _ => []

/-- Source lines 56-76, `gather_files`: walk the tree and return the
collected relative paths sorted lexicographically (`results.sort()`;
Python sorts strings by code point, as does `· ≤ ·` on `String`). -/
def gather_files (entries : List FSEntry) (exclude_dirs : List String) : List String :=
  (walkCollect exclude_dirs entries []).insertionSort (· ≤ ·)

/-- Source lines 79-82, `print_all_files`: the lines written to stdout are
exactly the `gather_files` result in order. -/
def print_all_files (entries : List FSEntry) (exclude_dirs : List String) : List String :=
  gather_files entries exclude_dirs

/-- Source lines 85-93, `print_only_example`: build the membership set of
the `gather_files` result and emit, in `EXAMPLE_FILES` order, the entries
that are members.  (`p in found` on the Python set is membership in the
gathered list.) -/
def print_only_example (entries : List FSEntry) (exclude_dirs : List String) : List String :=
  EXAMPLE_FILES.filter (fun p => decide (p ∈ gather_files entries exclude_dirs))

/-- Outcome of a `main` invocation: an error message with an exit code
(`raise SystemExit(2)` after the diagnostic print), or normal termination
with the list of stdout lines. -/
inductive MainResult where
  | error (message : String) (code : Nat)
  | ok (output : List String)

/-- Source lines 96-123, `main`.  Whether `--root` resolves to an existing
directory is a fact about the ambient filesystem, embedded as the
`Option`al contents of the root directory: `none` means
`not root.exists() or not root.is_dir()`.  `rootArg` is the `--root`
string as printed in the diagnostic; `ignore` is the `--ignore` list,
added to the defaults (lines 117-118, `exclude.update(args.ignore)`). -/
def main_run (rootArg : String) (rootDir : Option (List FSEntry))
    (onlyExample : Bool) (ignore : List String) : MainResult :=
  match rootDir with
  | none =>
      MainResult.error
        ("[error] root path '" ++ rootArg ++ "' does not exist or is not a directory.") 2
  | some entries =>
      let exclude := DEFAULT_EXCLUDE_DIRS ++ ignore
      if onlyExample then MainResult.ok (print_only_example entries exclude)
      else MainResult.ok (print_all_files entries exclude)

/-- The exclude set `main` passes to the traversal (source lines 117-118):
the defaults together with the `--ignore` additions. -/
def excludeOf (ignore : List String) : List String :=
  DEFAULT_EXCLUDE_DIRS ++ ignore

/-- Running the scan on a root that is itself a directory entry: `os.walk`
is started on the directory's contents unconditionally — the root's own
name is never tested against the exclude set (the pruning of line 65
applies only to `dirnames`, i.e. to subdirectories). A non-directory root
is rejected before any traversal. -/
def scanRoot (root : FSEntry) (exclude_dirs : List String) : Option (List String) :=
  match root with
  | FSEntry.dir _ cs => some (gather_files cs exclude_dirs)
  | _ => none

/-- The relative paths of the directories the walk descends into (the
`dirpath` values `os.walk` yields below the root), with the same pruning
as `walkCollect`: a pruned subdirectory is never yielded, and with
`followlinks=False` a symlinked directory is never yielded either. -/
def visitedDirs (exclude : List String) : List FSEntry → List String → List (List String)
  | [], _ => []
  | FSEntry.file _ :: es, pre => visitedDirs exclude es pre
  | FSEntry.dir n cs :: es, pre =>
      (if n ∈ exclude then [] else (pre ++ [n]) :: visitedDirs exclude cs (pre ++ [n]))
        ++ visitedDirs exclude es pre
  | FSEntry.symlinkDir _ _ :: es, pre => visitedDirs exclude es pre

/-- The tree with the contents behind every symbolic link removed; used to
state that the traversal's output never depends on what a symlink points
to. -/
def pruneSymlinkTargets : List FSEntry → List FSEntry
  | [] => []
  | FSEntry.file n :: es => FSEntry.file n :: pruneSymlinkTargets es
  | FSEntry.dir n cs :: es => FSEntry.dir n (pruneSymlinkTargets cs) :: pruneSymlinkTargets es
  | FSEntry.symlinkDir n _ :: es => FSEntry.symlinkDir n [] :: pruneSymlinkTargets es

/-- A string containing no path separator — true of every component name a
real filesystem can hand to `os.walk`. -/
def slashFree (s : String) : Bool :=
  decide ('/' ∉ s.data)

/-- Every file and directory name in the tree is separator-free (the
well-formedness a real directory tree always satisfies). -/
def slashFreeNames : List FSEntry → Bool
  | [] => true
  | FSEntry.file n :: es => slashFree n && slashFreeNames es
  | FSEntry.dir n cs :: es => slashFree n && slashFreeNames cs && slashFreeNames es
  | FSEntry.symlinkDir n t :: es => slashFree n && slashFreeNames t && slashFreeNames es

/-- Specification-side description of the output of `gather_files`, written
from the spec's words: a path is in the result exactly when it denotes a
regular file reachable from the root by descending only through
directories whose names are outside the exclude set (never through a
symbolic link); a file directly in the root contributes its bare name, a
file below a subdirectory contributes the subdirectory's name, a slash,
and the path within it. -/
inductive IsReachableFile (exclude : List String) : List FSEntry → String → Prop where
  | file_here {es : List FSEntry} {n : String}
      (h : FSEntry.file n ∈ es) : IsReachableFile exclude es n
  | in_subdir {es : List FSEntry} {d : String} {cs : List FSEntry} {q : String}
      (hd : FSEntry.dir d cs ∈ es) (hx : d ∉ exclude)
      (hq : IsReachableFile exclude cs q) :
      IsReachableFile exclude es (d ++ "/" ++ q)

/-- A file physically located somewhere in the tree (descending through
directories without any exclusion), with its relative path. -/
inductive FileIn : List FSEntry → String → Prop where
  | file_here {es : List FSEntry} {n : String}
      (h : FSEntry.file n ∈ es) : FileIn es n
  | in_subdir {es : List FSEntry} {d : String} {cs : List FSEntry} {q : String}
      (hd : FSEntry.dir d cs ∈ es) (hq : FileIn cs q) :
      FileIn es (d ++ "/" ++ q)

/-- A file located (at any depth) under some subdirectory of the tree whose
name is in the exclude set, with its relative path from the root. -/
inductive UnderExcludedDir (exclude : List String) : List FSEntry → String → Prop where
  | here {es : List FSEntry} {d : String} {cs : List FSEntry} {q : String}
      (hd : FSEntry.dir d cs ∈ es) (hx : d ∈ exclude) (hq : FileIn cs q) :
      UnderExcludedDir exclude es (d ++ "/" ++ q)
  | deeper {es : List FSEntry} {d : String} {cs : List FSEntry} {q : String}
      (hd : FSEntry.dir d cs ∈ es) (hq : UnderExcludedDir exclude cs q) :
      UnderExcludedDir exclude es (d ++ "/" ++ q)

/-- A chain of nested directories from the root: `DirChain es segs cs`
holds when following the directory names `segs` down from the root
contents `es` lands in a directory with contents `cs`. -/
inductive DirChain : List FSEntry → List String → List FSEntry → Prop where
  | nil {es : List FSEntry} : DirChain es [] es
  | cons {es : List FSEntry} {d : String} {cs es' : List FSEntry} {segs : List String}
      (hd : FSEntry.dir d cs ∈ es) (h : DirChain cs segs es') :
      DirChain es (d :: segs) es'

/-- Two directory trees with the same contents, possibly enumerated in a
different order at every level: the identity relation up to permutation of
sibling lists, recursively.  This captures "the filesystem reports the
same entries in a different iteration order". -/
inductive TreePerm : List FSEntry → List FSEntry → Prop where
  | nil : TreePerm [] []
  | cons_file {es es' : List FSEntry} (n : String)
      (h : TreePerm es es') : TreePerm (FSEntry.file n :: es) (FSEntry.file n :: es')
  | cons_dir {cs cs' es es' : List FSEntry} (n : String)
      (hc : TreePerm cs cs') (h : TreePerm es es') :
      TreePerm (FSEntry.dir n cs :: es) (FSEntry.dir n cs' :: es')
  | cons_symlink {t t' es es' : List FSEntry} (n : String)
      (ht : TreePerm t t') (h : TreePerm es es') :
      TreePerm (FSEntry.symlinkDir n t :: es) (FSEntry.symlinkDir n t' :: es')
  | swap (a b : FSEntry) (es : List FSEntry) : TreePerm (a :: b :: es) (b :: a :: es)
  | trans {es₁ es₂ es₃ : List FSEntry}
      (h₁ : TreePerm es₁ es₂) (h₂ : TreePerm es₂ es₃) : TreePerm es₁ es₃

/-! ### Basic lemmas about path joining and the walk -/

theorem joinPath_append (a b : List String) (f : String) :
    joinPath (a ++ b) f = joinPath a (joinPath b f) := by
  induction a with
  | nil => rfl
  | cons d rest ih => simp [joinPath, ih]

theorem joinPath_push (pre : List String) (d q : String) :
    joinPath (pre ++ [d]) q = joinPath pre (d ++ "/" ++ q) := by
  rw [joinPath_append]; simp [joinPath]

theorem walkCollect_cons (exclude pre : List String) (e : FSEntry) (es : List FSEntry) :
    walkCollect exclude (e :: es) pre = emitEntry exclude pre e ++ walkCollect exclude es pre := by
  cases e <;> simp [walkCollect, emitEntry]

theorem isReachableFile_tail {exclude : List String} {e : FSEntry} {es : List FSEntry} {q : String}
    (h : IsReachableFile exclude es q) : IsReachableFile exclude (e :: es) q := by
  cases h with
  | file_here h => exact IsReachableFile.file_here (List.mem_cons_of_mem _ h)
  | in_subdir hd hx hq => exact IsReachableFile.in_subdir (List.mem_cons_of_mem _ hd) hx hq

theorem file_mem_walkCollect {exclude : List String} {n : String} :
    ∀ {es : List FSEntry}, FSEntry.file n ∈ es →
      ∀ pre, joinPath pre n ∈ walkCollect exclude es pre := by
  intro es
  induction es with
  | nil => intro h; simp at h
  | cons e es ih =>
    intro h pre
    rcases List.mem_cons.mp h with he | hm
    · cases he; simp [walkCollect]
    · rw [walkCollect_cons]; exact List.mem_append_right _ (ih hm pre)

theorem dir_walkCollect_subset {exclude : List String} {d : String} {cs : List FSEntry}
    {p : String} :
    ∀ {es : List FSEntry}, FSEntry.dir d cs ∈ es → d ∉ exclude →
      ∀ pre, p ∈ walkCollect exclude cs (pre ++ [d]) → p ∈ walkCollect exclude es pre := by
  intro es
  induction es with
  | nil => intro h; simp at h
  | cons e es ih =>
    intro h hx pre hp
    rcases List.mem_cons.mp h with he | hm
    · cases he
      rw [walkCollect, if_neg hx]
      exact List.mem_append_left _ hp
    · rw [walkCollect_cons]; exact List.mem_append_right _ (ih hm hx pre hp)

/-! ### The walk collects exactly the reachable files -/

theorem mem_walkCollect_imp {exclude : List String} :
    ∀ (es : List FSEntry) (pre : List String), ∀ p ∈ walkCollect exclude es pre,
      ∃ q, IsReachableFile exclude es q ∧ p = joinPath pre q := by
  intro es pre
  induction es, pre using walkCollect.induct exclude with
  | case1 pre => intro p hp; simp [walkCollect] at hp
  | case2 n es pre ih =>
    intro p hp
    rw [walkCollect] at hp
    rcases List.mem_cons.mp hp with h | h
    · exact ⟨n, IsReachableFile.file_here (List.mem_cons_self _ _), h⟩
    · rcases ih p h with ⟨q, hq, hpq⟩
      exact ⟨q, isReachableFile_tail hq, hpq⟩
  | case3 n cs es pre ih1 ih2 =>
    intro p hp
    rw [walkCollect] at hp
    rcases List.mem_append.mp hp with h | h
    · by_cases hx : n ∈ exclude
      · rw [if_pos hx] at h; simp at h
      · rw [if_neg hx] at h
        rcases ih1 p h with ⟨q, hq, hpq⟩
        refine ⟨n ++ "/" ++ q, IsReachableFile.in_subdir (List.mem_cons_self _ _) hx hq, ?_⟩
        rw [hpq, joinPath_push]
    · rcases ih2 p h with ⟨q, hq, hpq⟩
      exact ⟨q, isReachableFile_tail hq, hpq⟩
  | case4 n t es pre ih =>
    intro p hp
    rw [walkCollect] at hp
    rcases ih p hp with ⟨q, hq, hpq⟩
    exact ⟨q, isReachableFile_tail hq, hpq⟩

theorem isReachableFile_joinPath_mem {exclude : List String} {es : List FSEntry} {q : String}
    (h : IsReachableFile exclude es q) :
    ∀ pre, joinPath pre q ∈ walkCollect exclude es pre := by
  induction h with
  | file_here h => exact fun pre => file_mem_walkCollect h pre
  | @in_subdir es d cs q hd hx hq ih =>
    intro pre
    rw [← joinPath_push]
    exact dir_walkCollect_subset hd hx pre (ih (pre ++ [d]))

theorem mem_gather_files {exclude : List String} {es : List FSEntry} {p : String} :
    p ∈ gather_files es exclude ↔ IsReachableFile exclude es p := by
  unfold gather_files
  rw [(List.perm_insertionSort _ _).mem_iff]
  constructor
  · intro h
    rcases mem_walkCollect_imp es [] p h with ⟨q, hq, hpq⟩
    have : p = q := by simpa [joinPath] using hpq
    exact this ▸ hq
  · intro h
    have := isReachableFile_joinPath_mem h []
    simpa [joinPath] using this

theorem gather_files_sorted (es : List FSEntry) (exclude : List String) :
    (gather_files es exclude).Sorted (· ≤ ·) :=
  List.sorted_insertionSort _ _

/-! ### Separator-free names make relative paths parse uniquely -/

theorem string_data_inj {s t : String} (h : s.data = t.data) : s = t := by
  cases s; cases t; simp_all

theorem slashFree_iff {s : String} : slashFree s = true ↔ '/' ∉ s.data := by
  simp [slashFree]

theorem seg_data (d x : String) :
    (d ++ "/" ++ x).data = d.data ++ '/' :: x.data := by
  simp [String.data_append, show ("/" : String).data = ['/'] from rfl]

theorem slash_mem_seg (d x : String) : '/' ∈ (d ++ "/" ++ x).data := by
  rw [seg_data]; simp

theorem list_split_at_mark {α : Type} {c : α} :
    ∀ (l₁ t₁ l₂ t₂ : List α), c ∉ l₁ → c ∉ l₂ →
      l₁ ++ c :: t₁ = l₂ ++ c :: t₂ → l₁ = l₂ ∧ t₁ = t₂ := by
  intro l₁
  induction l₁ with
  | nil =>
    intro t₁ l₂ t₂ _ h₂ heq
    cases l₂ with
    | nil => simpa using heq
    | cons x l₂ =>
      exfalso
      have hx : c = x := by simpa using congrArg (fun l => l.head?) heq
      exact h₂ (hx ▸ List.mem_cons_self _ _)
  | cons x l₁ ih =>
    intro t₁ l₂ t₂ h₁ h₂ heq
    cases l₂ with
    | nil =>
      exfalso
      have hx : x = c := by simpa using congrArg (fun l => l.head?) heq
      exact h₁ (hx ▸ List.mem_cons_self _ _)
    | cons y l₂ =>
      have hxy : x = y := by simpa using congrArg (fun l => l.head?) heq
      subst hxy
      have htail : l₁ ++ c :: t₁ = l₂ ++ c :: t₂ := by simpa using heq
      have h₁' : c ∉ l₁ := fun hc => h₁ (List.mem_cons_of_mem _ hc)
      have h₂' : c ∉ l₂ := fun hc => h₂ (List.mem_cons_of_mem _ hc)
      rcases ih t₁ l₂ t₂ h₁' h₂' htail with ⟨rfl, rfl⟩
      exact ⟨rfl, rfl⟩

theorem seg_append_inj {d d' r r' : String}
    (hd : slashFree d = true) (hd' : slashFree d' = true)
    (h : d ++ "/" ++ r = d' ++ "/" ++ r') : d = d' ∧ r = r' := by
  have hdata : d.data ++ '/' :: r.data = d'.data ++ '/' :: r'.data := by
    have h2 := congrArg String.data h
    rwa [seg_data, seg_data] at h2
  rcases list_split_at_mark _ _ _ _ (slashFree_iff.mp hd) (slashFree_iff.mp hd') hdata with
    ⟨h3, h4⟩
  exact ⟨string_data_inj h3, string_data_inj h4⟩

theorem joinPath_inj :
    ∀ (segs : List String) (f : String) (segs' : List String) (f' : String),
      (∀ d ∈ segs, slashFree d = true) → slashFree f = true →
      (∀ d ∈ segs', slashFree d = true) → slashFree f' = true →
      joinPath segs f = joinPath segs' f' → segs = segs' ∧ f = f' := by
  intro segs
  induction segs with
  | nil =>
    intro f segs' f' _ hf _ _ heq
    cases segs' with
    | nil => exact ⟨rfl, heq⟩
    | cons d' rest' =>
      exfalso
      have hmem := slash_mem_seg d' (joinPath rest' f')
      rw [show d' ++ "/" ++ joinPath rest' f' = joinPath (d' :: rest') f' from rfl, ← heq] at hmem
      exact slashFree_iff.mp hf hmem
  | cons d rest ih =>
    intro f segs' f' hs hf hs' hf' heq
    cases segs' with
    | nil =>
      exfalso
      have hmem := slash_mem_seg d (joinPath rest f)
      rw [show d ++ "/" ++ joinPath rest f = joinPath (d :: rest) f from rfl, heq] at hmem
      exact slashFree_iff.mp hf' hmem
    | cons d' rest' =>
      have heq2 : d ++ "/" ++ joinPath rest f = d' ++ "/" ++ joinPath rest' f' := heq
      rcases seg_append_inj (hs d (List.mem_cons_self _ _)) (hs' d' (List.mem_cons_self _ _))
          heq2 with ⟨rfl, htail⟩
      rcases ih f rest' f' (fun x hx => hs x (List.mem_cons_of_mem _ hx)) hf
          (fun x hx => hs' x (List.mem_cons_of_mem _ hx)) hf' htail with ⟨rfl, rfl⟩
      exact ⟨rfl, rfl⟩

/-! ### Name well-formedness distributes over the tree -/

theorem slashFreeNames_cons {e : FSEntry} {es : List FSEntry}
    (h : slashFreeNames (e :: es) = true) : slashFreeNames es = true := by
  cases e <;> simp [slashFreeNames, Bool.and_eq_true] at h <;> tauto

theorem slashFreeNames_mem_file {n : String} :
    ∀ {es : List FSEntry}, slashFreeNames es = true → FSEntry.file n ∈ es →
      slashFree n = true := by
  intro es
  induction es with
  | nil => intro _ h; simp at h
  | cons e es ih =>
    intro hv h
    rcases List.mem_cons.mp h with he | hm
    · cases he
      simp [slashFreeNames, Bool.and_eq_true] at hv
      exact hv.1
    · exact ih (slashFreeNames_cons hv) hm

theorem slashFreeNames_mem_dir {d : String} {cs : List FSEntry} :
    ∀ {es : List FSEntry}, slashFreeNames es = true → FSEntry.dir d cs ∈ es →
      slashFree d = true ∧ slashFreeNames cs = true := by
  intro es
  induction es with
  | nil => intro _ h; simp at h
  | cons e es ih =>
    intro hv h
    rcases List.mem_cons.mp h with he | hm
    · cases he
      simp [slashFreeNames, Bool.and_eq_true] at hv
      exact ⟨hv.1.1, hv.1.2⟩
    · exact ih (slashFreeNames_cons hv) hm

/-! ### Decomposing reachability into a chain of directory names -/

theorem isReachableFile_decomp {exclude : List String} :
    ∀ {es : List FSEntry} {p : String}, IsReachableFile exclude es p →
      slashFreeNames es = true →
      ∃ segs f, p = joinPath segs f ∧ (∀ d ∈ segs, d ∉ exclude) ∧
        (∀ d ∈ segs, slashFree d = true) ∧ slashFree f = true := by
  intro es p h
  induction h with
  | @file_here es n hm =>
    intro hv
    exact ⟨[], n, rfl, by simp, by simp, slashFreeNames_mem_file hv hm⟩
  | @in_subdir es d cs q hd hx hq ih =>
    intro hv
    obtain ⟨hdn, hcs⟩ := slashFreeNames_mem_dir hv hd
    rcases ih hcs with ⟨segs, f, hpf, hex, hsf, hf⟩
    refine ⟨d :: segs, f, by rw [joinPath, ← hpf], ?_, ?_, hf⟩
    · intro x hx2
      rcases List.mem_cons.mp hx2 with rfl | hxs
      · exact hx
      · exact hex _ hxs
    · intro x hx2
      rcases List.mem_cons.mp hx2 with rfl | hxs
      · exact hdn
      · exact hsf _ hxs

theorem fileIn_decomp :
    ∀ {es : List FSEntry} {p : String}, FileIn es p → slashFreeNames es = true →
      ∃ segs f, p = joinPath segs f ∧
        (∀ d ∈ segs, slashFree d = true) ∧ slashFree f = true := by
  intro es p h
  induction h with
  | @file_here es n hm =>
    intro hv
    exact ⟨[], n, rfl, by simp, slashFreeNames_mem_file hv hm⟩
  | @in_subdir es d cs q hd hq ih =>
    intro hv
    obtain ⟨hdn, hcs⟩ := slashFreeNames_mem_dir hv hd
    rcases ih hcs with ⟨segs, f, hpf, hsf, hf⟩
    refine ⟨d :: segs, f, by rw [joinPath, ← hpf], ?_, hf⟩
    intro x hx2
    rcases List.mem_cons.mp hx2 with rfl | hxs
    · exact hdn
    · exact hsf _ hxs

theorem underExcludedDir_decomp {exclude : List String} :
    ∀ {es : List FSEntry} {p : String}, UnderExcludedDir exclude es p →
      slashFreeNames es = true →
      ∃ segs f, p = joinPath segs f ∧ (∃ d ∈ segs, d ∈ exclude) ∧
        (∀ d ∈ segs, slashFree d = true) ∧ slashFree f = true := by
  intro es p h
  induction h with
  | @here es d cs q hd hx hq =>
    intro hv
    obtain ⟨hdn, hcs⟩ := slashFreeNames_mem_dir hv hd
    rcases fileIn_decomp hq hcs with ⟨segs, f, hpf, hsf, hf⟩
    refine ⟨d :: segs, f, by rw [joinPath, ← hpf], ⟨d, List.mem_cons_self _ _, hx⟩, ?_, hf⟩
    intro x hx2
    rcases List.mem_cons.mp hx2 with rfl | hxs
    · exact hdn
    · exact hsf _ hxs
  | @deeper es d cs q hd hq ih =>
    intro hv
    obtain ⟨hdn, hcs⟩ := slashFreeNames_mem_dir hv hd
    rcases ih hcs with ⟨segs, f, hpf, ⟨x0, hx0, hx0e⟩, hsf, hf⟩
    refine ⟨d :: segs, f, by rw [joinPath, ← hpf],
      ⟨x0, List.mem_cons_of_mem _ hx0, hx0e⟩, ?_, hf⟩
    intro x hx2
    rcases List.mem_cons.mp hx2 with rfl | hxs
    · exact hdn
    · exact hsf _ hxs

theorem isReachableFile_chain {exclude : List String} :
    ∀ {es : List FSEntry} {p : String}, IsReachableFile exclude es p →
      ∃ segs cs f, DirChain es segs cs ∧ FSEntry.file f ∈ cs ∧ p = joinPath segs f := by
  intro es p h
  induction h with
  | @file_here es n hm => exact ⟨[], es, n, DirChain.nil, hm, rfl⟩
  | @in_subdir es d cs q hd hx hq ih =>
    rcases ih with ⟨segs, cs', f, hc, hf, hpf⟩
    exact ⟨d :: segs, cs', f, DirChain.cons hd hc, hf, by rw [joinPath, ← hpf]⟩

theorem joinPath_eq_dirRelPath :
    ∀ (segs : List String) (f : String),
      joinPath segs f = if segs = [] then f else dirRelPath segs ++ "/" ++ f := by
  intro segs
  induction segs with
  | nil => intro f; simp [joinPath]
  | cons d rest ih =>
    intro f
    cases rest with
    | nil => simp [joinPath, dirRelPath]
    | cons e xs =>
      have h := ih f
      simp only [if_neg (List.cons_ne_nil e xs)] at h
      rw [joinPath, h, if_neg (List.cons_ne_nil d (e :: xs)),
        show dirRelPath (d :: e :: xs) = d ++ "/" ++ dirRelPath (e :: xs) from rfl]
      simp [String.append_assoc]

/-! ### The walk never yields a pruned directory -/

theorem visitedDirs_no_excluded {exclude : List String} :
    ∀ (es : List FSEntry) (pre : List String), (∀ d ∈ pre, d ∉ exclude) →
      ∀ chain ∈ visitedDirs exclude es pre, ∀ d ∈ chain, d ∉ exclude := by
  intro es pre
  induction es, pre using visitedDirs.induct exclude with
  | case1 pre => intro _ chain hc; simp [visitedDirs] at hc
  | case2 n es pre ih =>
    intro hp chain hc
    rw [visitedDirs] at hc
    exact ih hp chain hc
  | case3 n cs es pre ih1 ih2 =>
    intro hp chain hc
    rw [visitedDirs] at hc
    rcases List.mem_append.mp hc with h | h
    · by_cases hx : n ∈ exclude
      · rw [if_pos hx] at h; simp at h
      · rw [if_neg hx] at h
        have hp' : ∀ d ∈ pre ++ [n], d ∉ exclude := by
          intro d hd
          rcases List.mem_append.mp hd with h1 | h1
          · exact hp d h1
          · simp at h1; subst h1; exact hx
        rcases List.mem_cons.mp h with rfl | h2
        · exact hp'
        · exact ih1 hp' chain h2
    · exact ih2 hp chain h
  | case4 n t es pre ih =>
    intro hp chain hc
    rw [visitedDirs] at hc
    exact ih hp chain hc

/-! ### The walk depends on the exclude set only through membership -/

theorem walkCollect_congr {ex₁ ex₂ : List String} (hmem : ∀ d, d ∈ ex₁ ↔ d ∈ ex₂) :
    ∀ (es : List FSEntry) (pre : List String),
      walkCollect ex₁ es pre = walkCollect ex₂ es pre := by
  intro es pre
  induction es, pre using walkCollect.induct ex₁ with
  | case1 pre => simp [walkCollect]
  | case2 n es pre ih => rw [walkCollect, walkCollect, ih]
  | case3 n cs es pre ih1 ih2 =>
    rw [walkCollect, walkCollect, ih2]
    congr 1
    by_cases hx : n ∈ ex₁
    · rw [if_pos hx, if_pos ((hmem n).mp hx)]
    · rw [if_neg hx, if_neg (fun h => hx ((hmem n).mpr h)), ih1]
  | case4 n t es pre ih => rw [walkCollect, walkCollect, ih]

theorem gather_files_congr {ex₁ ex₂ : List String} (hmem : ∀ d, d ∈ ex₁ ↔ d ∈ ex₂)
    (es : List FSEntry) : gather_files es ex₁ = gather_files es ex₂ := by
  unfold gather_files
  rw [walkCollect_congr hmem]

/-! ### The walk never reads the contents behind a symlink -/

theorem walkCollect_pruneSymlinkTargets {exclude : List String} :
    ∀ (es : List FSEntry) (pre : List String),
      walkCollect exclude (pruneSymlinkTargets es) pre = walkCollect exclude es pre := by
  intro es pre
  induction es, pre using walkCollect.induct exclude with
  | case1 pre => simp [pruneSymlinkTargets]
  | case2 n es pre ih => rw [pruneSymlinkTargets, walkCollect, walkCollect, ih]
  | case3 n cs es pre ih1 ih2 =>
    rw [pruneSymlinkTargets, walkCollect, walkCollect, ih2]
    congr 1
    by_cases hx : n ∈ exclude
    · rw [if_pos hx, if_pos hx]
    · rw [if_neg hx, if_neg hx, ih1]
  | case4 n t es pre ih =>
    rw [pruneSymlinkTargets, walkCollect, walkCollect, ih]

/-! ### The walk's multiset of outputs is invariant under sibling reordering -/

theorem treePerm_walkCollect {exclude : List String} :
    ∀ {es es' : List FSEntry}, TreePerm es es' →
      ∀ pre, (walkCollect exclude es pre).Perm (walkCollect exclude es' pre) := by
  intro es es' h
  induction h with
  | nil => intro pre; exact List.Perm.refl _
  | cons_file n h ih =>
    intro pre
    rw [walkCollect, walkCollect]
    exact List.Perm.cons _ (ih pre)
  | cons_dir n hc h ihc ih =>
    intro pre
    rw [walkCollect, walkCollect]
    refine List.Perm.append ?_ (ih pre)
    by_cases hx : n ∈ exclude
    · rw [if_pos hx, if_pos hx]
    · rw [if_neg hx, if_neg hx]; exact ihc (pre ++ [n])
  | cons_symlink n ht h iht ih =>
    intro pre
    rw [walkCollect, walkCollect]
    exact ih pre
  | swap a b es =>
    intro pre
    rw [walkCollect_cons, walkCollect_cons, walkCollect_cons, walkCollect_cons,
      ← List.append_assoc, ← List.append_assoc]
    exact List.Perm.append_right _ List.perm_append_comm
  | trans h₁ h₂ ih₁ ih₂ => intro pre; exact (ih₁ pre).trans (ih₂ pre)

/-! ### Claims -/

/-- C1: For every root directory tree and every exclude set, `gather_files`
returns a list that is sorted lexicographically by string value (codepoint
ordering on `String`) and whose members are exactly the relative paths of
the regular files reachable from the root outside excluded subtrees; in
particular the returned list is always sorted. -/
theorem gather_files_sorted_and_complete (es : List FSEntry) (exclude : List String) :
    (gather_files es exclude).Sorted (· ≤ ·) ∧
      ∀ p, p ∈ gather_files es exclude ↔ IsReachableFile exclude es p :=
  ⟨gather_files_sorted es exclude, fun _ => mem_gather_files⟩

/-- C2: For every directory name in the exclude set and every root tree (with
filesystem-legal, separator-free names) containing a subdirectory of that
name at any depth, no file located anywhere under that subdirectory appears
in the list returned by `gather_files`. -/
theorem gather_files_excludes_subtrees {es : List FSEntry} {exclude : List String} {p : String}
    (hv : slashFreeNames es = true) (hu : UnderExcludedDir exclude es p) :
    p ∉ gather_files es exclude := by
  intro hmem
  rcases isReachableFile_decomp (mem_gather_files.mp hmem) hv with
    ⟨segs, f, hpf, hnex, hsf, hf⟩
  rcases underExcludedDir_decomp hu hv with ⟨segs', f', hpf', ⟨d, hd, hdex⟩, hsf', hf'⟩
  rcases joinPath_inj segs f segs' f' hsf hf hsf' hf' (hpf.symm.trans hpf') with ⟨rfl, rfl⟩
  exact hnex d hd hdex

/-- Witness for C2 at a concrete tree: a root containing
`node_modules/index.js` with the default excludes never lists that file. -/
theorem gather_files_excludes_subtrees_witness :
    ("node_modules" ++ "/" ++ "index.js") ∉
      gather_files [FSEntry.dir "node_modules" [FSEntry.file "index.js"]]
        DEFAULT_EXCLUDE_DIRS :=
  gather_files_excludes_subtrees
    (by simp +decide [slashFreeNames, slashFree])
    (UnderExcludedDir.here (List.mem_cons_self _ _)
      (by simp +decide [DEFAULT_EXCLUDE_DIRS])
      (FileIn.file_here (List.mem_cons_self _ _)))

/-- C3: `print_only_example` prints exactly those entries of the fixed
allowlist `EXAMPLE_FILES` that occur in the `gather_files` result, in the
allowlist's original fixed order: its output is a sublist (order-preserving
subsequence) of `EXAMPLE_FILES`, and a path is printed precisely when it is
on the allowlist and in the gathered result — entries not found are skipped
with no output and no error. -/
theorem print_only_example_subseq (es : List FSEntry) (exclude : List String) :
    (print_only_example es exclude).Sublist EXAMPLE_FILES ∧
      ∀ p, p ∈ print_only_example es exclude ↔
        p ∈ EXAMPLE_FILES ∧ p ∈ gather_files es exclude := by
  constructor
  · exact List.filter_sublist _
  · intro p
    simp [print_only_example, List.mem_filter]

/-- C4: For every `--root` argument that does not resolve to an existing
directory, the program emits exactly the diagnostic line
`[error] root path '<root>' does not exist or is not a directory.`
containing the literal path value and terminates with exit status 2,
producing no file-list output; and this is the only error condition — on
any existing root directory the run terminates normally with a file list. -/
theorem main_run_invalid_root (rootArg : String) (onlyExample : Bool) (ignore : List String) :
    main_run rootArg none onlyExample ignore =
      MainResult.error
        ("[error] root path '" ++ rootArg ++ "' does not exist or is not a directory.") 2 ∧
      ∀ es, ∃ out, main_run rootArg (some es) onlyExample ignore = MainResult.ok out := by
  refine ⟨rfl, fun es => ?_⟩
  cases onlyExample <;> exact ⟨_, rfl⟩

/-- C5: The traversal never enters a directory whose base name is in the
exclude set: every directory the walk visits (every `dirpath` yielded below
the root) has all of its path segments — in particular its own base name —
outside the exclude set, because the subdirectory list is pruned before any
descent. -/
theorem traversal_never_enters_excluded (es : List FSEntry) (exclude : List String) :
    ∀ chain ∈ visitedDirs exclude es [], ∀ d ∈ chain, d ∉ exclude :=
  visitedDirs_no_excluded es [] (by simp)

/-- Witness for C5 at a concrete tree: the walk of a root containing
`src/App.tsx` visits `src`, whose name is outside the default excludes. -/
theorem traversal_never_enters_excluded_witness :
    "src" ∉ DEFAULT_EXCLUDE_DIRS :=
  traversal_never_enters_excluded [FSEntry.dir "src" [FSEntry.file "App.tsx"]]
    DEFAULT_EXCLUDE_DIRS ["src"]
    (by simp +decide [visitedDirs, DEFAULT_EXCLUDE_DIRS]) "src"
    (List.mem_cons_self _ _)

/-- C6: Every path returned by `gather_files` is relative to the root: it
is obtained by following a chain of nested subdirectories down from the
root to the file's directory, and it is the bare file name when that
directory is the root itself, and otherwise the directory's root-relative
path joined with the file name by forward slashes. -/
theorem gather_files_path_shape {es : List FSEntry} {exclude : List String} {p : String}
    (hp : p ∈ gather_files es exclude) :
    ∃ segs cs f, DirChain es segs cs ∧ FSEntry.file f ∈ cs ∧
      p = (if segs = [] then f else dirRelPath segs ++ "/" ++ f) := by
  rcases isReachableFile_chain (mem_gather_files.mp hp) with ⟨segs, cs, f, hc, hf, hpf⟩
  exact ⟨segs, cs, f, hc, hf, by rw [hpf, joinPath_eq_dirRelPath]⟩

/-- Witness for C6 at a concrete tree: the listed path `src/App.tsx`
decomposes as directory chain plus file name. -/
theorem gather_files_path_shape_witness :
    ∃ segs cs f, DirChain [FSEntry.dir "src" [FSEntry.file "App.tsx"]] segs cs ∧
      FSEntry.file f ∈ cs ∧
      "src/App.tsx" = (if segs = [] then f else dirRelPath segs ++ "/" ++ f) :=
  @gather_files_path_shape [FSEntry.dir "src" [FSEntry.file "App.tsx"]] [] "src/App.tsx"
    (by simp +decide [gather_files, walkCollect, joinPath, List.insertionSort,
      List.orderedInsert])

/-- C7: `main` runs the traversal with the exclude set equal to the union of
the fixed default set and the `--ignore` names — membership in the used set
is exactly membership in the defaults or in the supplied names, so supplied
names prune in addition to the defaults, never instead of them — and a run
with `--ignore X` gathers identically to a run whose built-in default set
had contained `X` as a member. -/
theorem ignore_adds_to_defaults (es : List FSEntry) (extra : List String) :
    (∀ d, d ∈ excludeOf extra ↔ d ∈ DEFAULT_EXCLUDE_DIRS ∨ d ∈ extra) ∧
      ∀ X, gather_files es (excludeOf [X]) = gather_files es (X :: DEFAULT_EXCLUDE_DIRS) := by
  constructor
  · intro d; simp [excludeOf]
  · intro X
    apply gather_files_congr
    intro d
    simp only [excludeOf, List.mem_append, List.mem_cons, List.mem_singleton]
    tauto

/-- C8: The traversal does not follow symbolic links to directories: the
`gather_files` result is unchanged when the contents behind every symlink
are deleted from the tree, so no file reached only through a symlinked
directory ever appears; moreover every listed path is reachable through
ordinary directories alone. -/
theorem gather_files_no_symlink_descent (es : List FSEntry) (exclude : List String) :
    gather_files es exclude = gather_files (pruneSymlinkTargets es) exclude ∧
      ∀ p, p ∈ gather_files es exclude → IsReachableFile exclude es p := by
  constructor
  · unfold gather_files
    rw [walkCollect_pruneSymlinkTargets]
  · exact fun _ hp => mem_gather_files.mp hp

/-- C9: `gather_files` is deterministic and independent of the order in
which the filesystem enumerates directory entries: two trees with the same
contents enumerated in any sibling order (in particular, the same unchanged
tree across two runs) yield identical output lists. -/
theorem gather_files_order_independent {es es' : List FSEntry} (exclude : List String)
    (h : TreePerm es es') : gather_files es exclude = gather_files es' exclude := by
  refine List.eq_of_perm_of_sorted ?_ (gather_files_sorted es exclude)
    (gather_files_sorted es' exclude)
  unfold gather_files
  exact ((List.perm_insertionSort _ _).trans (treePerm_walkCollect h [])).trans
    (List.perm_insertionSort _ _).symm

/-- Witness for C9 at a concrete pair of trees differing only in
enumeration order. -/
theorem gather_files_order_independent_witness :
    gather_files [FSEntry.file "a", FSEntry.file "b"] [] =
      gather_files [FSEntry.file "b", FSEntry.file "a"] [] :=
  gather_files_order_independent [] (TreePerm.swap _ _ _)

/-- C10: The exclude set never applies to the root itself: scanning a root
directory whose own base name is excluded still traverses it and returns
its files (the root's name is never consulted), whereas the same directory
sitting as a subdirectory below the root would be pruned entirely. -/
theorem root_name_never_excluded (n : String) (cs : List FSEntry) (exclude : List String)
    (h : n ∈ exclude) :
    scanRoot (FSEntry.dir n cs) exclude = some (gather_files cs exclude) ∧
      gather_files [FSEntry.dir n cs] exclude = [] := by
  refine ⟨rfl, ?_⟩
  simp [gather_files, walkCollect, h, List.insertionSort]

/-- Witness for C10 at a concrete input: a root named `build` (an excluded
name) still lists its file `a`. -/
theorem root_name_never_excluded_witness :
    scanRoot (FSEntry.dir "build" [FSEntry.file "a"]) DEFAULT_EXCLUDE_DIRS =
        some (gather_files [FSEntry.file "a"] DEFAULT_EXCLUDE_DIRS) ∧
      gather_files [FSEntry.dir "build" [FSEntry.file "a"]] DEFAULT_EXCLUDE_DIRS = [] :=
  root_name_never_excluded "build" [FSEntry.file "a"] DEFAULT_EXCLUDE_DIRS
    (by simp +decide [DEFAULT_EXCLUDE_DIRS])

end CleanDirList
